import Mathlib

/-!
Shallow embedding of the `ipcalc` Go repository (package `ipcalc` and its
`wildcard` sub-package).  Addresses and masks are modelled as big-endian
byte lists (`List Nat`, each entry `< 256`); Go's in-place byte loops are
modelled by structurally recursive functions on the little-endian
(reversed) byte list.  Go functions that index a slice out of range
(a runtime panic) are modelled as `Option`/`Except` failures.
-/

namespace IpCalc

/-- Test of Go `ip.To4() != nil` for a 16-byte slice: the first ten bytes are
zero and bytes 10 and 11 are `0xff` (the IPv4-in-IPv6 prefix). -/
def isMapped (ip : List Nat) : Bool :=
  ip.length == 16 && ip.take 10 == List.replicate 10 0 &&
    ip.getD 10 0 == 255 && ip.getD 11 0 == 255

/-- Go `ipcalc.IP`: returns the address in its canonical byte length.  A
4-byte slice is returned as is, a 16-byte IPv4-mapped slice collapses to its
last 4 bytes, and anything else is returned as is. -/
def canonIP (ip : List Nat) : List Nat :=
  if ip.length = 4 then ip
  else if isMapped ip then ip.drop 12
  else ip

/-- Go `ipcalc.IPSize` (via `IPVersion`): 4 when the canonical form has
length 4, else 16. -/
def ipSize (ip : List Nat) : Nat :=
  if (canonIP ip).length = 4 then 4 else 16

/-- Byte-wise complement of one byte (`^b` on a Go `byte`); the bytes kept by
the data-model invariant are `< 256`, for which `255 ^^^ b = 255 - b`. -/
def compByte (b : Nat) : Nat := 255 ^^^ b

/-- Byte-wise complement of a mask, the non-nil case of Go
`ipcalc.Complement`. -/
def complementBytes (mask : List Nat) : List Nat := mask.map compByte

/-- Go `ipcalc.Complement` including its `nil` propagation. -/
def Complement : Option (List Nat) → Option (List Nat)
  | none => none
  | some m => some (complementBytes m)

/-- Shared shape of Go `ipcalc.And` / `Or` / `Xor`: canonicalize both
arguments, then combine the first `IPSize(b)` bytes of `a` with those of `b`
elementwise, keeping `a`'s remaining bytes.  When either slice is shorter
than `IPSize(b)` the Go loop indexes out of range, modelled as `none`. -/
def bitwiseOp (f : Nat → Nat → Nat) (a b : List Nat) : Option (List Nat) :=
  let a' := canonIP a
  let b' := canonIP b
  let n := ipSize b'
  if n ≤ a'.length ∧ n ≤ b'.length then
    some (List.zipWith f (a'.take n) (b'.take n) ++ a'.drop n)
  else none

/-- Go `ipcalc.And`. -/
def And (a b : List Nat) : Option (List Nat) := bitwiseOp (· &&& ·) a b

/-- Go `ipcalc.Or`. -/
def Or (a b : List Nat) : Option (List Nat) := bitwiseOp (· ||| ·) a b

/-- Go `ipcalc.Xor`. -/
def Xor (a b : List Nat) : Option (List Nat) := bitwiseOp (· ^^^ ·) a b

/-- Little-endian byte increment with carry and early stop: Go's
`for i := size-1; i >= 0; i-- { ip[i]++; if ip[i] != 0 { break } }`
acting on the reversed byte list.  An empty list models the carry falling
off the most significant byte (silent wrap). -/
def incLE : List Nat → List Nat
  | [] => []
  | b :: rest =>
    let b' := (b + 1) % 256
    if b' = 0 then b' :: incLE rest else b' :: rest

/-- Little-endian byte decrement with borrow and early stop: Go's
`for i := size-1; i >= 0; i-- { ip[i]--; if ip[i] != 0xff { break } }`
acting on the reversed byte list. -/
def decLE : List Nat → List Nat
  | [] => []
  | b :: rest =>
    let b' := (b + 255) % 256
    if b' = 255 then b' :: decLE rest else b' :: rest

/-- Go `ipcalc.NextIP`.  The Go loop runs over `IPSize(ip)` bytes, which for
the 4- and 16-byte addresses handled by the theorems below is exactly the
length of the canonicalized slice (any other length makes the Go loop read
out of range). -/
def NextIP (ip : List Nat) : List Nat :=
  let ip' := canonIP ip
  (incLE ip'.reverse).reverse

/-- Go `ipcalc.PrevIP`. -/
def PrevIP (ip : List Nat) : List Nat :=
  let ip' := canonIP ip
  (decLE ip'.reverse).reverse

/-- Little-endian masked addition: per byte, add the masked addend
(mod 256), and on byte overflow (`a[i] < prev` in Go) ripple a carry into
the higher bytes via `incLE` (Go's inner `j` loop), then continue with the
next byte. -/
def addLE : List Nat → List Nat → List Nat
  | as, [] => as
  | [], _ :: _ => []
  | a :: as, x :: xs =>
    let s := (a + x) % 256
    s :: addLE (if s < a then incLE as else as) xs

/-- Little-endian masked subtraction: per byte subtract (mod 256, written
`(a + 256 - x) % 256` for bytes `< 256`), and on byte underflow
(`a[i] > prev` in Go) ripple a borrow into the higher bytes via `decLE`. -/
def subLE : List Nat → List Nat → List Nat
  | as, [] => as
  | [], _ :: _ => []
  | a :: as, x :: xs =>
    let s := (a + 256 - x) % 256
    s :: subLE (if a < s then decLE as else as) xs

/-- Go `ipcalc.Add`: canonicalize, then add `b AND mask` into `a` over the
first `len(mask)` bytes (carries stay inside that range); a slice shorter
than the mask makes the Go loop index out of range, modelled as `none`. -/
def Add (a b mask : List Nat) : Option (List Nat) :=
  let a' := canonIP a
  let b' := canonIP b
  if mask.length ≤ a'.length ∧ mask.length ≤ b'.length then
    some (((addLE (a'.take mask.length).reverse
      (List.zipWith (· &&& ·) (b'.take mask.length) mask).reverse).reverse)
      ++ a'.drop mask.length)
  else none

/-- Go `ipcalc.Substract` (sic), the masked subtraction. -/
def Substract (a b mask : List Nat) : Option (List Nat) :=
  let a' := canonIP a
  let b' := canonIP b
  if mask.length ≤ a'.length ∧ mask.length ≤ b'.length then
    some (((subLE (a'.take mask.length).reverse
      (List.zipWith (· &&& ·) (b'.take mask.length) mask).reverse).reverse)
      ++ a'.drop mask.length)
  else none

/-- Value of a little-endian byte list. -/
def leVal : List Nat → Nat
  | [] => 0
  | b :: bs => b + 256 * leVal bs

/-- Value of a big-endian byte list (an address's numeric value). -/
def beVal (l : List Nat) : Nat := leVal l.reverse

/-- Every entry of the list is a byte value. -/
def Bytes (l : List Nat) : Prop := ∀ b ∈ l, b < 256

instance : DecidablePred Bytes := fun l =>
  inferInstanceAs (Decidable (∀ b ∈ l, b < 256))

/-- An address the way `ipcalc.IP` would return it: 4 or 16 bytes long,
fixed by canonicalization, all entries byte values. -/
def Canonical (ip : List Nat) : Prop :=
  (ip.length = 4 ∨ ip.length = 16) ∧ canonIP ip = ip ∧ Bytes ip

instance : DecidablePred Canonical := fun _ =>
  inferInstanceAs (Decidable (_ ∧ _ ∧ _))

/-- Go `net.IP.Equal`: equal lengths compare byte-wise; a 4-byte and a
16-byte slice are equal when the latter is IPv4-mapped onto the former. -/
def ipEqual (a b : List Nat) : Bool :=
  if a.length = b.length then a == b
  else if a.length = 4 ∧ b.length = 16 then isMapped b && b.drop 12 == a
  else if a.length = 16 ∧ b.length = 4 then isMapped a && a.drop 12 == b
  else false

/-- The `wildcard.Wildcard` struct: a current address, the fixed care-bit
values, and the care mask (complement of the user-supplied wildcard mask). -/
structure Wildcard where
  ip : List Nat
  bits : List Nat
  mask : List Nat
deriving DecidableEq, Repr

/-- Go `wildcard.New`: canonicalize the address, store the canonicalized
complement of the wildcard mask as the care mask, and fix
`bits = And(ip, mask)`.  The `And` indexes out of range (Go panics) when the
canonical mask is longer than the canonical address, hence `Option`. -/
def New (ip wildcard : List Nat) : Option Wildcard :=
  let ip' := canonIP ip
  let mask := canonIP (complementBytes wildcard)
  (And ip' mask).map (fun bits => ⟨ip', bits, mask⟩)

/-- Go `(Wildcard).Wildcard()`: the user-facing wildcard mask, the
complement of the stored care mask. -/
def wildcardMask (w : Wildcard) : List Nat := complementBytes w.mask

/-- Go `(Wildcard).Matches`: `ipcalc.And(ip, w.mask).Equal(w.bits)`. -/
def Matches (w : Wildcard) (ip : List Nat) : Option Bool :=
  (And ip w.mask).map (fun r => ipEqual r w.bits)

/-- Go `(Wildcard).First`: all fields canonicalized, address and bits both
set to the stored `bits` (every don't-care bit cleared). -/
def First (w : Wildcard) : Wildcard :=
  ⟨canonIP w.bits, canonIP w.bits, canonIP w.mask⟩

/-- Go `(Wildcard).Last`: address `Or(bits, Complement(mask))` (every
don't-care bit set), bits and mask canonicalized. -/
def Last (w : Wildcard) : Option Wildcard :=
  (Or w.bits (complementBytes w.mask)).map
    (fun ip' => ⟨ip', canonIP w.bits, canonIP w.mask⟩)

/-- Go `wildcard.bit`: bit `i` of byte `b` (`b>>i&1 == 1`). -/
def bit (b : Nat) (i : Nat) : Bool := Nat.testBit b i

/-- Inner bit loop of Go `(Wildcard).Next` on one byte, for the list of bit
positions still to scan: skip care bits; at the first don't-care bit that is
clear, set it and stop (`true`); otherwise clear it (carry) and go on. -/
def nextBitsAux (m : Nat) : Nat → List Nat → Nat × Bool
  | b, [] => (b, false)
  | b, j :: js =>
    if bit m j then nextBitsAux m b js
    else if bit b j = false then (b ||| (1 <<< j), true)
    else nextBitsAux m (b &&& (255 ^^^ (1 <<< j))) js

/-- Outer byte loop of Go `(Wildcard).Next`, over the little-endian
(mask, address) byte lists: once a byte scan stops, later bytes are
untouched. -/
def nextChain : List Nat → List Nat → List Nat × Bool
  | m :: ms, b :: bs =>
    let r := nextBitsAux m b (List.range 8)
    if r.2 then (r.1 :: bs, true)
    else
      let rest := nextChain ms bs
      (r.1 :: rest.1, rest.2)
  | _, bs => (bs, false)

/-- Address update of Go `(Wildcard).Next`: scan bytes `IPSize(w.ip)-1`
down to `0` (note `IPSize`, not the slice length: a 16-byte cursor that
currently looks IPv4-mapped is scanned over its first 4 bytes only), bit
positions 0-7 within each byte. -/
def nextAddr (mask ip : List Nat) : List Nat :=
  let n := ipSize ip
  ((nextChain (mask.take n).reverse (ip.take n).reverse).1).reverse ++ ip.drop n

/-- Go `(Wildcard).Next` as a state transformer (Go mutates `w.ip` in place
and returns it). -/
def Next (w : Wildcard) : Wildcard := { w with ip := nextAddr w.mask w.ip }

/-- Inner bit loop of Go `(Wildcard).Prev` on one byte: skip care bits; at
the first don't-care bit that is set, clear it and stop; otherwise set it
(borrow) and go on. -/
def prevBitsAux (m : Nat) : Nat → List Nat → Nat × Bool
  | b, [] => (b, false)
  | b, j :: js =>
    if bit m j then prevBitsAux m b js
    else if bit b j then (b &&& (255 ^^^ (1 <<< j)), true)
    else prevBitsAux m (b ||| (1 <<< j)) js

/-- Outer byte loop of Go `(Wildcard).Prev`. -/
def prevChain : List Nat → List Nat → List Nat × Bool
  | m :: ms, b :: bs =>
    let r := prevBitsAux m b (List.range 8)
    if r.2 then (r.1 :: bs, true)
    else
      let rest := prevChain ms bs
      (r.1 :: rest.1, rest.2)
  | _, bs => (bs, false)

/-- Address update of Go `(Wildcard).Prev` (same `IPSize` scan bound as
`Next`). -/
def prevAddr (mask ip : List Nat) : List Nat :=
  let n := ipSize ip
  ((prevChain (mask.take n).reverse (ip.take n).reverse).1).reverse ++ ip.drop n

/-- Go `(Wildcard).Prev` as a state transformer. -/
def Prev (w : Wildcard) : Wildcard := { w with ip := prevAddr w.mask w.ip }

/-- Go `wildcard.findWildcard`: the pair `(And(a,b), Xor(a,b))`. -/
def findWildcard (a b : List Nat) : Option (List Nat × List Nat) :=
  match And a b, Xor a b with
  | some x, some y => some (x, y)
  | _, _ => none

/-- Go `wildcard.FindWildcard`: fold `findWildcard` over the extra
addresses — each step keeps the running AND but replaces (not accumulates)
the XOR — then build the Wildcard from the final pair. -/
def FindWildcard (a b : List Nat) (extra : List (List Nat)) : Option Wildcard := do
  let p ← findWildcard a b
  let q ← extra.foldlM (fun (p : List Nat × List Nat) ip => findWildcard p.1 ip) p
  New q.1 q.2

/-- Number of set bits over a byte list (the claim's count of don't-care
bits of a wildcard mask). -/
def popCount (l : List Nat) : Nat :=
  l.foldl (fun acc b => acc + ((List.range 8).countP (fun j => bit b j)) ) 0

/-- Go `net.ParseError`: an error kind and the offending text. -/
structure ParseErr where
  type : String
  text : List Char
deriving DecidableEq, Repr

deriving instance DecidableEq for Except

/-- Go `strings.Split` with a single-character separator, on the
character list of the string. -/
def splitOnChar (c : Char) : List Char → List (List Char)
  | [] => [[]]
  | x :: xs =>
    if x = c then [] :: splitOnChar c xs
    else
      match splitOnChar c xs with
      | [] => [[x]]
      | p :: ps => (x :: p) :: ps

/-- Decimal value of a digit string. -/
def digitsVal (s : List Char) : Nat :=
  s.foldl (fun a c => a * 10 + (c.toNat - 48)) 0

/-- Modelled from the spec: one field of the external standard-library
dotted-decimal address parser — a non-empty all-digit run without a leading
zero, value at most 255. -/
def parseByte (s : List Char) : Option Nat :=
  if s = [] then none
  else if ¬ s.all (·.isDigit) then none
  else if s.length > 1 ∧ s.headD '0' = '0' then none
  else if digitsVal s > 255 then none
  else some (digitsVal s)

/-- Modelled from the spec: the external standard-library address parser
(the spec delegates address parsing to "a standard address-parsing routine
external to this core").  Only the dotted-decimal IPv4 form is modelled
(the claims use no IPv6 literals); as in the Go library, a parsed IPv4
address is represented in its 16-byte IPv4-mapped form. -/
def parseIP (s : List Char) : Option (List Nat) :=
  match splitOnChar '.' s with
  | [p0, p1, p2, p3] =>
    match parseByte p0, parseByte p1, parseByte p2, parseByte p3 with
    | some a, some b, some c, some d =>
      some [0, 0, 0, 0, 0, 0, 0, 0, 0, 0, 255, 255, a, b, c, d]
    | _, _, _, _ => none
  | _ => none

/-- Go `ipcalc.ParseMask`: parse an address-shaped mask literal and
canonicalize it; an unparsable literal gives Go `nil`, modelled `none`. -/
def ParseMask (mask : List Char) : Option (List Nat) :=
  (parseIP mask).map canonIP

/-- Modelled from the spec: the external `strconv.Atoi` — an optional sign
followed by a non-empty digit run (integer overflow is not modelled; the
claims only use small values). -/
def atoi (s : List Char) : Option Int :=
  match s with
  | [] => none
  | '+' :: ds =>
    if ds ≠ [] ∧ ds.all (·.isDigit) then some ((digitsVal ds : Nat) : Int) else none
  | '-' :: ds =>
    if ds ≠ [] ∧ ds.all (·.isDigit) then some (-((digitsVal ds : Nat) : Int)) else none
  | ds => if ds.all (·.isDigit) then some ((digitsVal ds : Nat) : Int) else none

/-- Modelled from the Go standard library `net.CIDRMask`: `nil` unless the
total bit size is 32 or 128 and `0 ≤ ones ≤ bits`; otherwise `bits/8` bytes
with `ones` leading one-bits. -/
def cidrMask (ones : Int) (bits : Nat) : Option (List Nat) :=
  if bits ≠ 32 ∧ bits ≠ 128 then none
  else if ones < 0 ∨ ones > (bits : Int) then none
  else some ((List.range (bits / 8)).map (fun i => 255 - (255 >>> (ones.toNat - 8 * i))))

/-- Leading-`~` handling of Go `ParseIPMask`: whether the spec starts with
`~`, and the spec with the `~` stripped. -/
def stripTilde (spec : List Char) : Bool × List Char :=
  match spec with
  | '~' :: rest => (true, rest)
  | _ => (false, spec)

/-- Mask denoted by a stripped mask spec in Go `ParseIPMask`: a decimal
prefix length via `CIDRMask`, else a literal mask via `ParseMask`. -/
def rawMask (size : Nat) (s : List Char) : Option (List Nat) :=
  match atoi s with
  | some bits => cidrMask bits size
  | none => ParseMask s

/-- Mask spec evaluation of Go `ParseIPMask`: strip a leading `~`, compute
the raw mask, and complement it when the `~` was present. -/
def maskSpec (size : Nat) (spec : List Char) : Option (List Nat) :=
  let p := stripTilde spec
  let m := rawMask size p.2
  if p.1 then Complement m else m

/-- Go `ipcalc.ParseIPMask` on the character list of `addr`: split on `/`;
parse the address part (error `IP address` on failure); more than one `/` is
the error `IP/Mask` carrying the whole input; with one `/`, evaluate the
mask spec (error `Mask` carrying the tilde-stripped spec when it denotes no
mask); with no `/` the mask is unset. -/
def ParseIPMask (addr : List Char) : Except ParseErr (List Nat × Option (List Nat)) :=
  let v := splitOnChar '/' addr
  match parseIP (v.headD []) with
  | none => .error ⟨"IP address", v.headD []⟩
  | some ip =>
    if v.length > 2 then .error ⟨"IP/Mask", addr⟩
    else if v.length = 2 then
      let spec := v.getD 1 []
      match maskSpec (ipSize ip * 8) spec with
      | some m => .ok (ip, some m)
      | none => .error ⟨"Mask", (stripTilde spec).2⟩
    else .ok (ip, none)

/-! Helper lemmas about `Bytes`. -/

theorem bytes_cons {b : Nat} {l : List Nat} (hb : b < 256) (hl : Bytes l) :
    Bytes (b :: l) := fun x hx => by
  rcases List.mem_cons.mp hx with h | h
  · exact h ▸ hb
  · exact hl x h

theorem bytes_head {b : Nat} {l : List Nat} (h : Bytes (b :: l)) : b < 256 :=
  h b (List.mem_cons_self b l)

theorem bytes_tail {b : Nat} {l : List Nat} (h : Bytes (b :: l)) : Bytes l :=
  fun x hx => h x (List.mem_cons_of_mem b hx)

theorem bytes_reverse {l : List Nat} (h : Bytes l) : Bytes l.reverse :=
  fun x hx => h x (List.mem_reverse.mp hx)

theorem bytes_append {l1 l2 : List Nat} (h1 : Bytes l1) (h2 : Bytes l2) :
    Bytes (l1 ++ l2) := fun x hx => by
  rcases List.mem_append.mp hx with h | h
  · exact h1 x h
  · exact h2 x h

theorem bytes_take {l : List Nat} (n : Nat) (h : Bytes l) : Bytes (l.take n) :=
  fun x hx => h x (List.mem_of_mem_take hx)

theorem bytes_drop {l : List Nat} (n : Nat) (h : Bytes l) : Bytes (l.drop n) :=
  fun x hx => h x (List.mem_of_mem_drop hx)

/-! Base-256 positional arithmetic for `leVal`. -/

theorem leVal_lt {l : List Nat} (h : Bytes l) : leVal l < 256 ^ l.length := by
  induction l with
  | nil => simp [leVal]
  | cons b bs ih =>
    have hb := bytes_head h
    have hv := ih (bytes_tail h)
    simp only [leVal, List.length_cons, Nat.pow_succ]
    omega

theorem digit_mod {d : Nat} (M n : Nat) (hd : d < 256) :
    (d + 256 * M) % 256 ^ (n + 1) = d + 256 * (M % 256 ^ n) := by
  have hP : 0 < 256 ^ n := Nat.pos_pow_of_pos n (by norm_num)
  have hr : M % 256 ^ n < 256 ^ n := Nat.mod_lt _ hP
  have hM : 256 ^ n * (M / 256 ^ n) + M % 256 ^ n = M := Nat.div_add_mod M (256 ^ n)
  have hsp : (256 : Nat) ^ (n + 1) = 256 * 256 ^ n := by
    rw [Nat.pow_succ]; exact Nat.mul_comm _ _
  have key : d + 256 * M = (d + 256 * (M % 256 ^ n)) + 256 ^ (n + 1) * (M / 256 ^ n) := by
    conv_lhs => rw [← hM]
    rw [hsp]; ring
  rw [key, Nat.add_mul_mod_self_left]
  exact Nat.mod_eq_of_lt (by rw [hsp]; omega)

theorem incLE_length (l : List Nat) : (incLE l).length = l.length := by
  induction l with
  | nil => rfl
  | cons b bs ih => simp only [incLE]; split <;> simp [ih]

theorem decLE_length (l : List Nat) : (decLE l).length = l.length := by
  induction l with
  | nil => rfl
  | cons b bs ih => simp only [decLE]; split <;> simp [ih]

theorem incLE_bytes {l : List Nat} (h : Bytes l) : Bytes (incLE l) := by
  induction l with
  | nil => exact h
  | cons b bs ih =>
    simp only [incLE]
    split
    · exact bytes_cons (Nat.mod_lt _ (by norm_num)) (ih (bytes_tail h))
    · exact bytes_cons (Nat.mod_lt _ (by norm_num)) (bytes_tail h)

theorem decLE_bytes {l : List Nat} (h : Bytes l) : Bytes (decLE l) := by
  induction l with
  | nil => exact h
  | cons b bs ih =>
    simp only [decLE]
    split
    · exact bytes_cons (Nat.mod_lt _ (by norm_num)) (ih (bytes_tail h))
    · exact bytes_cons (Nat.mod_lt _ (by norm_num)) (bytes_tail h)

theorem leVal_incLE {l : List Nat} (h : Bytes l) :
    leVal (incLE l) = (leVal l + 1) % 256 ^ l.length := by
  induction l with
  | nil => simp [incLE, leVal]
  | cons b bs ih =>
    have hb := bytes_head h
    have hv : leVal bs < 256 ^ bs.length := leVal_lt (bytes_tail h)
    simp only [incLE, List.length_cons]
    by_cases hc : (b + 1) % 256 = 0
    · have hb255 : b = 255 := by omega
      simp only [if_pos hc, leVal, hc, ih (bytes_tail h)]
      have he : b + 256 * leVal bs + 1 = 0 + 256 * (leVal bs + 1) := by omega
      rw [he, digit_mod _ _ (by norm_num)]
    · have hlt : b + 1 < 256 := by omega
      simp only [if_neg hc, leVal]
      have hm : (b + 1) % 256 = b + 1 := Nat.mod_eq_of_lt hlt
      rw [hm]
      have : b + 256 * leVal bs + 1 = (b + 1) + 256 * leVal bs := by omega
      rw [this, digit_mod _ _ hlt, Nat.mod_eq_of_lt hv]

theorem leVal_decLE {l : List Nat} (h : Bytes l) :
    leVal (decLE l) = (leVal l + (256 ^ l.length - 1)) % 256 ^ l.length := by
  induction l with
  | nil => simp [decLE, leVal]
  | cons b bs ih =>
    have hb := bytes_head h
    have hv : leVal bs < 256 ^ bs.length := leVal_lt (bytes_tail h)
    have hP : 0 < 256 ^ bs.length := Nat.pos_pow_of_pos _ (by norm_num)
    have hsp : (256 : Nat) ^ (bs.length + 1) = 256 ^ bs.length * 256 := Nat.pow_succ _ _
    simp only [decLE, List.length_cons]
    by_cases hc : (b + 255) % 256 = 255
    · have hb0 : b = 0 := by omega
      simp only [if_pos hc, leVal, hc, ih (bytes_tail h)]
      have he : b + 256 * leVal bs + (256 ^ (bs.length + 1) - 1)
          = 255 + 256 * (leVal bs + (256 ^ bs.length - 1)) := by omega
      rw [he, digit_mod _ _ (by norm_num)]
    · have hb1 : 1 ≤ b := by omega
      have hm : (b + 255) % 256 = b - 1 := by omega
      have hb254 : ¬ (b - 1 = 255) := by omega
      simp only [hm, if_neg hc, if_neg hb254, leVal]
      have he : b + 256 * leVal bs + (256 ^ (bs.length + 1) - 1)
          = ((b - 1) + 256 * leVal bs) + (256 ^ (bs.length + 1)) * 1 := by omega
      rw [he, Nat.add_mul_mod_self_left]
      exact (Nat.mod_eq_of_lt (by omega)).symm

theorem decLE_incLE {l : List Nat} (h : Bytes l) : decLE (incLE l) = l := by
  induction l with
  | nil => rfl
  | cons b bs ih =>
    have hb := bytes_head h
    simp only [incLE]
    by_cases hc : (b + 1) % 256 = 0
    · have hb255 : b = 255 := by omega
      simp only [if_pos hc, decLE, hc]
      norm_num
      exact ⟨hb255.symm, ih (bytes_tail h)⟩
    · have hlt : b + 1 < 256 := by omega
      have hm : (b + 1) % 256 = b + 1 := Nat.mod_eq_of_lt hlt
      simp only [if_neg hc, decLE, hm]
      have h2 : (b + 1 + 255) % 256 = b := by omega
      rw [h2]
      have h3 : ¬ b = 255 := by omega
      simp [h3]

theorem incLE_decLE {l : List Nat} (h : Bytes l) : incLE (decLE l) = l := by
  induction l with
  | nil => rfl
  | cons b bs ih =>
    have hb := bytes_head h
    simp only [decLE]
    by_cases hc : (b + 255) % 256 = 255
    · have hb0 : b = 0 := by omega
      simp only [if_pos hc, incLE, hc]
      norm_num
      exact ⟨hb0.symm, ih (bytes_tail h)⟩
    · have hb1 : 1 ≤ b := by omega
      have hm : (b + 255) % 256 = b - 1 := by omega
      have hb254 : ¬ (b - 1 = 255) := by omega
      simp only [if_neg hc, hm, if_neg hb254, incLE]
      have h2 : (b - 1 + 1) % 256 = b := by omega
      rw [h2]
      have h3 : ¬ b = 0 := by omega
      simp [h3]

/-- Claim C7 counterexample: the canonical 16-byte address `::fffe:ffff:ffff`
(bytes 10/11 are `255,254`) is mapped by `NextIP` onto `::ffff:0:0`, which is
IPv4-mapped; `PrevIP` re-canonicalizes it to the 4-byte `0.0.0.0` and wraps to
`255.255.255.255`, so the round trip does not return the original address. -/
theorem C7_counterexample :
    Canonical [0, 0, 0, 0, 0, 0, 0, 0, 0, 0, 255, 254, 255, 255, 255, 255] ∧
    PrevIP (NextIP [0, 0, 0, 0, 0, 0, 0, 0, 0, 0, 255, 254, 255, 255, 255, 255]) ≠
      [0, 0, 0, 0, 0, 0, 0, 0, 0, 0, 255, 254, 255, 255, 255, 255] := by
  decide

/-- Claim C7 (amended): for every canonical address `x`, `PrevIP (NextIP x) = x`
provided `NextIP x` is itself canonical (not an IPv4-mapped 16-byte value), and
`NextIP (PrevIP x) = x` provided `PrevIP x` is itself canonical. -/
theorem C7_roundtrip (x : List Nat) (h : Canonical x) :
    (canonIP (NextIP x) = NextIP x → PrevIP (NextIP x) = x) ∧
    (canonIP (PrevIP x) = PrevIP x → NextIP (PrevIP x) = x) := by
  obtain ⟨hlen, hcan, hb⟩ := h
  constructor
  · intro h1
    simp only [PrevIP]
    rw [h1]
    simp only [NextIP, hcan]
    rw [List.reverse_reverse, decLE_incLE (bytes_reverse hb), List.reverse_reverse]
  · intro h1
    simp only [NextIP]
    rw [h1]
    simp only [PrevIP, hcan]
    rw [List.reverse_reverse, incLE_decLE (bytes_reverse hb), List.reverse_reverse]

theorem C7_roundtrip_witness :
    PrevIP (NextIP [192, 0, 2, 1]) = [192, 0, 2, 1] :=
  (C7_roundtrip [192, 0, 2, 1] (by decide)).1 (by decide)

/-- Claim C8: for every canonical address, `NextIP` and `PrevIP` preserve the
byte length and act as `+1` and `-1` modulo `2^(8*length)` on the big-endian
value; in particular the all-ones address steps to all-zero and back, for both
the 4-byte and the 16-byte length, with no error signal (the functions are
total). -/
theorem C8_wrap :
    (∀ x : List Nat, Canonical x →
      (NextIP x).length = x.length ∧
      beVal (NextIP x) = (beVal x + 1) % 2 ^ (8 * x.length) ∧
      (PrevIP x).length = x.length ∧
      beVal (PrevIP x) = (beVal x + (2 ^ (8 * x.length) - 1)) % 2 ^ (8 * x.length)) ∧
    NextIP (List.replicate 4 255) = List.replicate 4 0 ∧
    PrevIP (List.replicate 4 0) = List.replicate 4 255 ∧
    NextIP (List.replicate 16 255) = List.replicate 16 0 ∧
    PrevIP (List.replicate 16 0) = List.replicate 16 255 := by
  refine ⟨?_, by decide, by decide, by decide, by decide⟩
  intro x h
  obtain ⟨hlen, hcan, hb⟩ := h
  have hbr := bytes_reverse hb
  have hlr : x.reverse.length = x.length := List.length_reverse x
  have hpow : (2 : Nat) ^ (8 * x.length) = 256 ^ x.length := by
    rw [Nat.pow_mul]
  refine ⟨?_, ?_, ?_, ?_⟩
  · simp only [NextIP, hcan, List.length_reverse, incLE_length]
  · simp only [NextIP, beVal, hcan, List.reverse_reverse, hpow]
    rw [leVal_incLE hbr, hlr]
  · simp only [PrevIP, hcan, List.length_reverse, decLE_length]
  · simp only [PrevIP, beVal, hcan, List.reverse_reverse, hpow]
    rw [leVal_decLE hbr, hlr]

theorem C8_wrap_witness :
    (NextIP [192, 0, 2, 255]).length = ([192, 0, 2, 255] : List Nat).length ∧
    beVal (NextIP [192, 0, 2, 255]) =
      (beVal [192, 0, 2, 255] + 1) % 2 ^ (8 * ([192, 0, 2, 255] : List Nat).length) ∧
    (PrevIP [192, 0, 2, 255]).length = ([192, 0, 2, 255] : List Nat).length ∧
    beVal (PrevIP [192, 0, 2, 255]) =
      (beVal [192, 0, 2, 255] + (2 ^ (8 * ([192, 0, 2, 255] : List Nat).length) - 1)) %
        2 ^ (8 * ([192, 0, 2, 255] : List Nat).length) :=
  C8_wrap.1 [192, 0, 2, 255] (by decide)

/-! Length, byte-bound and value lemmas for the masked add/subtract loops. -/

theorem addLE_length : ∀ (xs l : List Nat), (addLE l xs).length = l.length := by
  intro xs
  induction xs with
  | nil => intro l; cases l <;> rfl
  | cons x xs ih =>
    intro l
    cases l with
    | nil => rfl
    | cons a as =>
      simp only [addLE, List.length_cons]
      split
      · rw [ih, incLE_length]
      · rw [ih]

theorem subLE_length : ∀ (xs l : List Nat), (subLE l xs).length = l.length := by
  intro xs
  induction xs with
  | nil => intro l; cases l <;> rfl
  | cons x xs ih =>
    intro l
    cases l with
    | nil => rfl
    | cons a as =>
      simp only [subLE, List.length_cons]
      split
      · rw [ih, decLE_length]
      · rw [ih]

theorem addLE_bytes : ∀ (xs l : List Nat), Bytes l → Bytes (addLE l xs) := by
  intro xs
  induction xs with
  | nil => intro l hl; cases l <;> exact hl
  | cons x xs ih =>
    intro l hl
    cases l with
    | nil => exact hl
    | cons a as =>
      simp only [addLE]
      split
      · exact bytes_cons (Nat.mod_lt _ (by norm_num))
          (ih _ (incLE_bytes (bytes_tail hl)))
      · exact bytes_cons (Nat.mod_lt _ (by norm_num)) (ih _ (bytes_tail hl))

theorem subLE_bytes : ∀ (xs l : List Nat), Bytes l → Bytes (subLE l xs) := by
  intro xs
  induction xs with
  | nil => intro l hl; cases l <;> exact hl
  | cons x xs ih =>
    intro l hl
    cases l with
    | nil => exact hl
    | cons a as =>
      simp only [subLE]
      split
      · exact bytes_cons (Nat.mod_lt _ (by norm_num))
          (ih _ (decLE_bytes (bytes_tail hl)))
      · exact bytes_cons (Nat.mod_lt _ (by norm_num)) (ih _ (bytes_tail hl))

theorem leVal_addLE : ∀ (xs l : List Nat), Bytes xs → Bytes l → l.length = xs.length →
    leVal (addLE l xs) = (leVal l + leVal xs) % 256 ^ l.length := by
  intro xs
  induction xs with
  | nil =>
    intro l _ _ hlen
    have h0 : l = [] := List.length_eq_zero.mp hlen
    subst h0
    simp [addLE, leVal]
  | cons x xs ih =>
    intro l hxs hl hlen
    cases l with
    | nil => simp at hlen
    | cons a as =>
      have ha := bytes_head hl
      have hx := bytes_head hxs
      have has := bytes_tail hl
      have hxs' := bytes_tail hxs
      have hlen' : as.length = xs.length := by simpa using hlen
      simp only [addLE, List.length_cons, leVal]
      by_cases hc : (a + x) % 256 < a
      · rw [if_pos hc,
          ih _ hxs' (incLE_bytes has) (by rw [incLE_length]; exact hlen'),
          incLE_length, leVal_incLE has, Nat.mod_add_mod]
        have he : a + 256 * leVal as + (x + 256 * leVal xs)
            = ((a + x) % 256) + 256 * (leVal as + 1 + leVal xs) := by omega
        rw [he, digit_mod _ _ (Nat.mod_lt _ (by norm_num))]
      · rw [if_neg hc, ih _ hxs' has hlen']
        have he : a + 256 * leVal as + (x + 256 * leVal xs)
            = ((a + x) % 256) + 256 * (leVal as + leVal xs) := by omega
        rw [he, digit_mod _ _ (Nat.mod_lt _ (by norm_num))]

theorem leVal_subLE : ∀ (xs l : List Nat), Bytes xs → Bytes l → l.length = xs.length →
    leVal (subLE l xs) = (leVal l + (256 ^ l.length - leVal xs)) % 256 ^ l.length := by
  intro xs
  induction xs with
  | nil =>
    intro l _ _ hlen
    have h0 : l = [] := List.length_eq_zero.mp hlen
    subst h0
    simp [subLE, leVal]
  | cons x xs ih =>
    intro l hxs hl hlen
    cases l with
    | nil => simp at hlen
    | cons a as =>
      have ha := bytes_head hl
      have hx := bytes_head hxs
      have has := bytes_tail hl
      have hxs' := bytes_tail hxs
      have hlen' : as.length = xs.length := by simpa using hlen
      have hvxs : leVal xs < 256 ^ as.length := hlen' ▸ leVal_lt hxs'
      have hsp : (256 : Nat) ^ (as.length + 1) = 256 ^ as.length * 256 := Nat.pow_succ _ _
      simp only [subLE, List.length_cons, leVal]
      by_cases hc : a < (a + 256 - x) % 256
      · rw [if_pos hc,
          ih _ hxs' (decLE_bytes has) (by rw [decLE_length]; exact hlen'),
          decLE_length, leVal_decLE has, Nat.mod_add_mod]
        have he2 : leVal as + (256 ^ as.length - 1) + (256 ^ as.length - leVal xs)
            = (leVal as + (256 ^ as.length - 1 - leVal xs)) + 256 ^ as.length * 1 := by omega
        rw [he2, Nat.add_mul_mod_self_left]
        have he : a + 256 * leVal as + (256 ^ (as.length + 1) - (x + 256 * leVal xs))
            = ((a + 256 - x) % 256) + 256 * (leVal as + (256 ^ as.length - 1 - leVal xs)) := by
          omega
        rw [he, digit_mod _ _ (Nat.mod_lt _ (by norm_num))]
      · rw [if_neg hc, ih _ hxs' has hlen']
        have he : a + 256 * leVal as + (256 ^ (as.length + 1) - (x + 256 * leVal xs))
            = ((a + 256 - x) % 256) + 256 * (leVal as + (256 ^ as.length - leVal xs)) := by
          omega
        rw [he, digit_mod _ _ (Nat.mod_lt _ (by norm_num))]

theorem leVal_inj : ∀ (l1 l2 : List Nat), Bytes l1 → Bytes l2 → l1.length = l2.length →
    leVal l1 = leVal l2 → l1 = l2 := by
  intro l1
  induction l1 with
  | nil =>
    intro l2 _ _ hlen _
    cases l2 with
    | nil => rfl
    | cons b bs => simp at hlen
  | cons a as ih =>
    intro l2 h1 h2 hlen hv
    cases l2 with
    | nil => simp at hlen
    | cons b bs =>
      have ha := bytes_head h1
      have hb := bytes_head h2
      simp only [leVal] at hv
      have hab : a = b := by omega
      have htl : leVal as = leVal bs := by omega
      rw [hab]
      rw [ih bs (bytes_tail h1) (bytes_tail h2) (by simpa using hlen) htl]

theorem mod_cancel {A X M : Nat} (hA : A < M) (hX : X ≤ M) :
    ((A + X) % M + (M - X)) % M = A := by
  rw [Nat.mod_add_mod]
  have he : A + X + (M - X) = A + M := by omega
  rw [he, Nat.add_mod_right]
  exact Nat.mod_eq_of_lt hA

theorem bytes_zipWith_land : ∀ (l1 l2 : List Nat), Bytes l1 →
    Bytes (List.zipWith (· &&& ·) l1 l2) := by
  intro l1
  induction l1 with
  | nil => intro l2 _; intro x hx; simp at hx
  | cons a as ih =>
    intro l2 h
    cases l2 with
    | nil => intro x hx; simp at hx
    | cons b bs =>
      simp only [List.zipWith_cons_cons]
      exact bytes_cons (Nat.lt_of_le_of_lt Nat.and_le_left (bytes_head h))
        (ih bs (bytes_tail h))

/-- Unfolding of Go `Add` when canonicalization is the identity and the mask
is exactly as long as both operands. -/
theorem Add_eq_some {a b m : List Nat} (hca : canonIP a = a) (hcb : canonIP b = b)
    (hla : m.length = a.length) (hlb : m.length = b.length) :
    Add a b m =
      some ((addLE a.reverse (List.zipWith (· &&& ·) b m).reverse).reverse) := by
  have hta : a.take m.length = a := by rw [hla, List.take_length]
  have htb : b.take m.length = b := by rw [hlb, List.take_length]
  have hda : a.drop m.length = [] := by rw [hla, List.drop_length]
  simp only [Add, hca, hcb]
  rw [if_pos ⟨le_of_eq hla, le_of_eq hlb⟩, hta, htb, hda, List.append_nil]

/-- Unfolding of Go `Substract` under the same conditions. -/
theorem Substract_eq_some {a b m : List Nat} (hca : canonIP a = a) (hcb : canonIP b = b)
    (hla : m.length = a.length) (hlb : m.length = b.length) :
    Substract a b m =
      some ((subLE a.reverse (List.zipWith (· &&& ·) b m).reverse).reverse) := by
  have hta : a.take m.length = a := by rw [hla, List.take_length]
  have htb : b.take m.length = b := by rw [hlb, List.take_length]
  have hda : a.drop m.length = [] := by rw [hla, List.drop_length]
  simp only [Substract, hca, hcb]
  rw [if_pos ⟨le_of_eq hla, le_of_eq hlb⟩, hta, htb, hda, List.append_nil]

/-- Claim C3 counterexample: with 16-byte canonical operands and an all-ones
16-byte mask, `Add` lands exactly on the IPv4-mapped address `::ffff:0:0`;
`Substract` then canonicalizes it to the 4-byte `0.0.0.0` and its loop over
the 16 mask bytes indexes out of range (a Go panic), so the composition does
not return the first operand. -/
theorem C3_counterexample :
    Canonical [0, 0, 0, 0, 0, 0, 0, 0, 0, 0, 255, 254, 0, 0, 0, 0] ∧
    Canonical [0, 0, 0, 0, 0, 0, 0, 0, 0, 0, 0, 1, 0, 0, 0, 0] ∧
    Bytes (List.replicate 16 255) ∧
    (Add [0, 0, 0, 0, 0, 0, 0, 0, 0, 0, 255, 254, 0, 0, 0, 0]
        [0, 0, 0, 0, 0, 0, 0, 0, 0, 0, 0, 1, 0, 0, 0, 0]
        (List.replicate 16 255)).bind
      (fun r => Substract r [0, 0, 0, 0, 0, 0, 0, 0, 0, 0, 0, 1, 0, 0, 0, 0]
        (List.replicate 16 255)) = none := by
  decide

/-- Claim C3 (amended): for canonical addresses `a`, `b` and a mask `m` of the
same byte length, `Substract (Add a b m) b m = a` bit for bit, provided the
result of `Add` is itself canonical (not an IPv4-mapped 16-byte value). -/
theorem C3_add_sub (a b m : List Nat) (ha : Canonical a) (hb : Canonical b)
    (hm : Bytes m) (hla : m.length = a.length) (hlb : m.length = b.length)
    (r : List Nat) (hr : Add a b m = some r) (hcr : canonIP r = r) :
    Substract r b m = some a := by
  have hca := ha.2.1
  have hcb := hb.2.1
  have hba : Bytes a := ha.2.2
  have hbb : Bytes b := hb.2.2
  have hbxs : Bytes (List.zipWith (· &&& ·) b m) := bytes_zipWith_land b m hbb
  have hlxs : (List.zipWith (· &&& ·) b m).length = m.length := by
    rw [List.length_zipWith, ← hlb, Nat.min_self]
  rw [Add_eq_some hca hcb hla hlb] at hr
  have hr' : r = (addLE a.reverse (List.zipWith (· &&& ·) b m).reverse).reverse := by
    exact (Option.some.injEq _ _ ▸ hr : _ = r).symm
  have hlr : r.length = a.length := by
    rw [hr', List.length_reverse, addLE_length, List.length_reverse]
  have hbr : Bytes r := by
    rw [hr']
    exact bytes_reverse (addLE_bytes _ _ (bytes_reverse hba))
  have hlar : m.length = r.length := by rw [hlr]; exact hla
  rw [Substract_eq_some hcr hcb hlar hlb]
  have hlen1 : r.reverse.length = (List.zipWith (· &&& ·) b m).reverse.length := by
    rw [List.length_reverse, List.length_reverse, hlxs, hlr, ← hla]
  have hlen2 : a.reverse.length = (List.zipWith (· &&& ·) b m).reverse.length := by
    rw [List.length_reverse, List.length_reverse, hlxs, ← hla]
  have hrrev : r.reverse = addLE a.reverse (List.zipWith (· &&& ·) b m).reverse := by
    rw [hr', List.reverse_reverse]
  have hvA : leVal a.reverse < 256 ^ a.reverse.length := leVal_lt (bytes_reverse hba)
  have hvX : leVal (List.zipWith (· &&& ·) b m).reverse
      ≤ 256 ^ a.reverse.length := by
    have := leVal_lt (bytes_reverse hbxs)
    rw [← hlen2] at this
    exact le_of_lt this
  have hval : leVal (subLE r.reverse (List.zipWith (· &&& ·) b m).reverse)
      = leVal a.reverse := by
    rw [leVal_subLE _ _ (bytes_reverse hbxs) (bytes_reverse hbr) hlen1,
      hrrev, leVal_addLE _ _ (bytes_reverse hbxs) (bytes_reverse hba) hlen2,
      addLE_length]
    exact mod_cancel hvA hvX
  have key : subLE r.reverse (List.zipWith (· &&& ·) b m).reverse = a.reverse := by
    apply leVal_inj _ _ (subLE_bytes _ _ (bytes_reverse hbr)) (bytes_reverse hba)
    · rw [subLE_length, List.length_reverse, List.length_reverse, hlr]
    · exact hval
  rw [key, List.reverse_reverse]

theorem C3_add_sub_witness :
    Substract [192, 0, 2, 2] [0, 0, 0, 1] [0, 0, 0, 255] = some [192, 0, 2, 1] :=
  C3_add_sub [192, 0, 2, 1] [0, 0, 0, 1] [0, 0, 0, 255] (by decide) (by decide)
    (by decide) (by decide) (by decide) [192, 0, 2, 2] (by decide) (by decide)

/-- Unfolding of the shared `And`/`Or`/`Xor` shape when both operands are
fixed by canonicalization and have the same canonical length. -/
theorem bitwiseOp_eq (f : Nat → Nat → Nat) {a b : List Nat}
    (hca : canonIP a = a) (hcb : canonIP b = b)
    (hlen : a.length = b.length) (hL : b.length = 4 ∨ b.length = 16) :
    bitwiseOp f a b = some (List.zipWith f a b) := by
  have hn : ipSize b = b.length := by
    unfold ipSize
    rw [hcb]
    rcases hL with h | h <;> simp [h]
  have hta : a.take b.length = a := by rw [← hlen, List.take_length]
  have htb : b.take b.length = b := List.take_length b
  have hda : a.drop b.length = [] := by rw [← hlen, List.drop_length]
  simp only [bitwiseOp, hca, hcb, hn]
  rw [if_pos ⟨le_of_eq hlen.symm, le_refl _⟩, hta, htb, hda, List.append_nil]

/-- Claim C6 counterexample: for the canonical 16-byte `2001:db8::1` and the
4-byte `192.0.2.1`, the results of `And`, `Or` and `Xor` keep the 16-byte
length of the first operand — they do not take `b`'s 4-byte length. -/
theorem C6_counterexample :
    Canonical [32, 1, 13, 184, 0, 0, 0, 0, 0, 0, 0, 0, 0, 0, 0, 1] ∧
    Canonical [192, 0, 2, 1] ∧
    (And [32, 1, 13, 184, 0, 0, 0, 0, 0, 0, 0, 0, 0, 0, 0, 1]
      [192, 0, 2, 1]).map List.length = some 16 ∧
    (Or [32, 1, 13, 184, 0, 0, 0, 0, 0, 0, 0, 0, 0, 0, 0, 1]
      [192, 0, 2, 1]).map List.length = some 16 ∧
    (Xor [32, 1, 13, 184, 0, 0, 0, 0, 0, 0, 0, 0, 0, 0, 0, 1]
      [192, 0, 2, 1]).map List.length = some 16 ∧
    ¬ (And [32, 1, 13, 184, 0, 0, 0, 0, 0, 0, 0, 0, 0, 0, 0, 1]
      [192, 0, 2, 1]).map List.length = some 4 := by
  decide

/-- Claim C6 (amended): when canonical `a` is 16 bytes and canonical `b` is
4 bytes, `And`/`Or`/`Xor` combine `b` into the first `IPSize(b) = 4` bytes of
`a` (its high-order bytes) and keep `a`'s remaining 12 bytes, so the result
has `a`'s 16-byte length, not `b`'s. -/
theorem C6_mixed (a b : List Nat) (ha : Canonical a) (hb : Canonical b)
    (h16 : a.length = 16) (h4 : b.length = 4) :
    And a b = some (List.zipWith (· &&& ·) (a.take 4) b ++ a.drop 4) ∧
    Or a b = some (List.zipWith (· ||| ·) (a.take 4) b ++ a.drop 4) ∧
    Xor a b = some (List.zipWith (· ^^^ ·) (a.take 4) b ++ a.drop 4) ∧
    (And a b).map List.length = some a.length ∧
    (Or a b).map List.length = some a.length ∧
    (Xor a b).map List.length = some a.length := by
  have hgen : ∀ f : Nat → Nat → Nat,
      bitwiseOp f a b = some (List.zipWith f (a.take 4) b ++ a.drop 4) := by
    intro f
    have hn : ipSize b = 4 := by unfold ipSize; rw [hb.2.1]; simp [h4]
    have htb : b.take 4 = b := by rw [← h4, List.take_length]
    simp only [bitwiseOp, ha.2.1, hb.2.1, hn, htb]
    rw [if_pos ⟨by omega, by omega⟩]
  have hlen : ∀ f : Nat → Nat → Nat,
      (List.zipWith f (a.take 4) b ++ a.drop 4).length = a.length := by
    intro f
    simp [List.length_append, List.length_zipWith, List.length_take,
      List.length_drop, h16, h4]
  refine ⟨hgen _, hgen _, hgen _, ?_, ?_, ?_⟩ <;>
    simp [And, Or, Xor, hgen, hlen]

theorem C6_mixed_witness :
    And [32, 1, 13, 184, 0, 0, 0, 0, 0, 0, 0, 0, 0, 0, 0, 1] [192, 0, 2, 1] =
      some (List.zipWith (· &&& ·)
        (([32, 1, 13, 184, 0, 0, 0, 0, 0, 0, 0, 0, 0, 0, 0, 1] : List Nat).take 4)
        [192, 0, 2, 1] ++
        ([32, 1, 13, 184, 0, 0, 0, 0, 0, 0, 0, 0, 0, 0, 0, 1] : List Nat).drop 4) :=
  (C6_mixed [32, 1, 13, 184, 0, 0, 0, 0, 0, 0, 0, 0, 0, 0, 0, 1] [192, 0, 2, 1]
    (by decide) (by decide) (by decide) (by decide)).1

/-- Claim C5 counterexample: for the over-specified input `192.0.2.10/24/8`,
`ParseIPMask` fails with the error kind `IP/Mask` (not the mask error kind
`Mask`) and the offending text is the whole input, not the trailing suffix
`24/8`. -/
theorem C5_counterexample :
    ParseIPMask "192.0.2.10/24/8".data =
      .error ⟨"IP/Mask", "192.0.2.10/24/8".data⟩ ∧
    "192.0.2.10/24/8".data ≠ "24/8".data ∧
    ("IP/Mask" : String) ≠ "Mask" := by
  refine ⟨by decide, by decide, by decide⟩

/-- Claim C5 (amended): for every input containing more than one `/` whose
first segment parses as an address, `ParseIPMask` fails with an error of kind
`IP/Mask` whose offending text is the entire input string (inputs whose first
segment does not parse fail earlier with the `IP address` error). -/
theorem C5_overspec (s : List Char) (ip : List Nat)
    (h1 : 2 < (splitOnChar '/' s).length)
    (h2 : parseIP ((splitOnChar '/' s).headD []) = some ip) :
    ParseIPMask s = .error ⟨"IP/Mask", s⟩ := by
  simp only [ParseIPMask, h2]
  rw [if_pos h1]

theorem C5_overspec_witness :
    ParseIPMask "1.2.3.4/5/6".data = .error ⟨"IP/Mask", "1.2.3.4/5/6".data⟩ :=
  C5_overspec "1.2.3.4/5/6".data [0, 0, 0, 0, 0, 0, 0, 0, 0, 0, 255, 255, 1, 2, 3, 4]
    (by decide) (by decide)

/-- Claim C9: a mask spec with a leading `~` always denotes the bitwise
complement of the mask denoted by the rest of the spec (prefix length or
literal mask); concretely, `ParseIPMask "192.0.2.10/~12"` succeeds and
returns the mask `0.15.255.255` (the complement of the /12 mask
`255.240.0.0`). -/
theorem C9_tilde :
    (∀ (size : Nat) (rest : List Char),
        maskSpec size ('~' :: rest) = Complement (rawMask size rest)) ∧
    ParseIPMask "192.0.2.10/~12".data =
      .ok ([0, 0, 0, 0, 0, 0, 0, 0, 0, 0, 255, 255, 192, 0, 2, 10],
        some [0, 15, 255, 255]) := by
  constructor
  · intro size rest
    rfl
  · decide

/-! Bit-level byte lemmas used by the wildcard claims. -/

theorem testBit_255 (i : Nat) : Nat.testBit 255 i = decide (i < 8) := by
  have h : (255 : Nat) = 2 ^ 8 - 1 := by norm_num
  rw [h, Nat.testBit_two_pow_sub_one]

theorem testBit_byte_high {a i : Nat} (ha : a < 256) (h8 : ¬ i < 8) :
    a.testBit i = false := by
  apply Nat.testBit_lt_two_pow
  calc a < 256 := ha
    _ = 2 ^ 8 := by norm_num
    _ ≤ 2 ^ i := Nat.pow_le_pow_right (by norm_num) (by omega)

theorem byte_and_not_xor_left {a : Nat} (b : Nat) (ha : a < 256) :
    a &&& (255 ^^^ (a ^^^ b)) = (a &&& b) &&& (255 ^^^ (a ^^^ b)) := by
  apply Nat.eq_of_testBit_eq
  intro i
  simp only [Nat.testBit_land, Nat.testBit_xor, testBit_255]
  by_cases h8 : i < 8
  · simp only [decide_eq_true h8]
    cases hA : a.testBit i <;> cases hB : b.testBit i <;> simp
  · simp [testBit_byte_high ha h8]

theorem byte_and_not_xor_right {b : Nat} (a : Nat) (hb : b < 256) :
    b &&& (255 ^^^ (a ^^^ b)) = (a &&& b) &&& (255 ^^^ (a ^^^ b)) := by
  apply Nat.eq_of_testBit_eq
  intro i
  simp only [Nat.testBit_land, Nat.testBit_xor, testBit_255]
  by_cases h8 : i < 8
  · simp only [decide_eq_true h8]
    cases hA : a.testBit i <;> cases hB : b.testBit i <;> simp
  · simp [testBit_byte_high hb h8]

theorem byte_land_self (m : Nat) : m &&& m = m := by
  apply Nat.eq_of_testBit_eq
  intro i
  simp [Nat.testBit_land]

theorem byte_last_match {w : Nat} (x : Nat) (hw : w < 256) :
    ((x &&& (255 ^^^ w)) ||| w) &&& (255 ^^^ w) = x &&& (255 ^^^ w) := by
  apply Nat.eq_of_testBit_eq
  intro i
  simp only [Nat.testBit_land, Nat.testBit_lor, Nat.testBit_xor, testBit_255]
  by_cases h8 : i < 8
  · simp only [decide_eq_true h8]
    cases hX : x.testBit i <;> cases hW : w.testBit i <;> simp
  · simp [testBit_byte_high hw h8, h8]

theorem complementBytes_cons (z : Nat) (zs : List Nat) :
    complementBytes (z :: zs) = (255 ^^^ z) :: complementBytes zs := rfl

theorem complementBytes_length (l : List Nat) :
    (complementBytes l).length = l.length := List.length_map _ _

theorem complementBytes_complementBytes (l : List Nat) :
    complementBytes (complementBytes l) = l := by
  induction l with
  | nil => rfl
  | cons z zs ih =>
    simp only [complementBytes_cons, ih, Nat.xor_cancel_left]

/-! List-level consequences on zipped byte lists. -/

theorem zip_matches_left : ∀ (a b : List Nat), Bytes a →
    List.zipWith (· &&& ·) a (complementBytes (List.zipWith (· ^^^ ·) a b)) =
    List.zipWith (· &&& ·) (List.zipWith (· &&& ·) a b)
      (complementBytes (List.zipWith (· ^^^ ·) a b)) := by
  intro a
  induction a with
  | nil => intro b _; rfl
  | cons x xs ih =>
    intro b ha
    cases b with
    | nil => rfl
    | cons y ys =>
      simp only [List.zipWith_cons_cons, complementBytes_cons]
      rw [byte_and_not_xor_left y (bytes_head ha), ih ys (bytes_tail ha)]

theorem zip_matches_right : ∀ (a b : List Nat), Bytes b →
    List.zipWith (· &&& ·) b (complementBytes (List.zipWith (· ^^^ ·) a b)) =
    List.zipWith (· &&& ·) (List.zipWith (· &&& ·) a b)
      (complementBytes (List.zipWith (· ^^^ ·) a b)) := by
  intro a
  induction a with
  | nil => intro b _; cases b <;> rfl
  | cons x xs ih =>
    intro b hb
    cases b with
    | nil => rfl
    | cons y ys =>
      simp only [List.zipWith_cons_cons, complementBytes_cons]
      rw [byte_and_not_xor_right x (bytes_head hb), ih ys (bytes_tail hb)]

theorem zip_land_idem : ∀ (a m : List Nat),
    List.zipWith (· &&& ·) (List.zipWith (· &&& ·) a m) m =
    List.zipWith (· &&& ·) a m := by
  intro a
  induction a with
  | nil => intro m; rfl
  | cons x xs ih =>
    intro m
    cases m with
    | nil => rfl
    | cons y ys =>
      simp only [List.zipWith_cons_cons, Nat.land_assoc, byte_land_self, ih]

theorem zip_last_match : ∀ (ipl wc : List Nat), Bytes wc →
    List.zipWith (· &&& ·)
      (List.zipWith (· ||| ·)
        (List.zipWith (· &&& ·) ipl (complementBytes wc)) wc)
      (complementBytes wc) =
    List.zipWith (· &&& ·) ipl (complementBytes wc) := by
  intro ipl
  induction ipl with
  | nil => intro wc _; rfl
  | cons x xs ih =>
    intro wc hwc
    cases wc with
    | nil => rfl
    | cons y ys =>
      simp only [List.zipWith_cons_cons, complementBytes_cons]
      rw [byte_last_match x (bytes_head hwc), ih ys (bytes_tail hwc)]

theorem list_beq_eq_decide (a b : List Nat) :
    (a == b) = decide (a = b) := by
  cases hb : a == b
  · simp [beq_eq_false_iff_ne.mp hb]
  · simp [beq_iff_eq.mp hb]

theorem ipEqual_of_length {x y : List Nat} (h : x.length = y.length) :
    ipEqual x y = (x == y) := by
  simp [ipEqual, h]

/-- Claim C1 counterexample: `FindWildcard(0.0.0.2, 0.0.0.1, 0.0.0.0)`
produces the wildcard 0.0.0.0/0.0.0.0 (the extra-address fold replaces the
accumulated XOR mask instead of accumulating it), which does not match the
first given address 0.0.0.2. -/
theorem C1_counterexample :
    Canonical [0, 0, 0, 2] ∧ Canonical [0, 0, 0, 1] ∧ Canonical [0, 0, 0, 0] ∧
    (FindWildcard [0, 0, 0, 2] [0, 0, 0, 1] [[0, 0, 0, 0]]).bind
      (fun w => Matches w [0, 0, 0, 2]) = some false := by
  decide

/-- Claim C1 (amended): with no extra addresses, the Wildcard returned by
`FindWildcard a b` matches both given addresses, for canonical sameform
addresses such that neither the AND of the pair nor the complement of their
XOR is re-canonicalized (not IPv4-mapped 16-byte values); with extra
addresses the fold replaces the accumulated XOR, and the result can fail to
match earlier inputs. -/
theorem C1_pair (a b : List Nat) (ha : Canonical a) (hb : Canonical b)
    (hlen : a.length = b.length)
    (hand : canonIP (List.zipWith (· &&& ·) a b) = List.zipWith (· &&& ·) a b)
    (hxor : canonIP (complementBytes (List.zipWith (· ^^^ ·) a b)) =
      complementBytes (List.zipWith (· ^^^ ·) a b))
    (w : Wildcard) (hw : FindWildcard a b [] = some w) :
    Matches w a = some true ∧ Matches w b = some true := by
  have hca := ha.2.1
  have hcb := hb.2.1
  have hba := ha.2.2
  have hbb := hb.2.2
  have hLa : a.length = 4 ∨ a.length = 16 := ha.1
  have hLb : b.length = 4 ∨ b.length = 16 := hlen ▸ ha.1
  have hAnd : And a b = some (List.zipWith (· &&& ·) a b) :=
    bitwiseOp_eq _ hca hcb hlen hLb
  have hXor : Xor a b = some (List.zipWith (· ^^^ ·) a b) :=
    bitwiseOp_eq _ hca hcb hlen hLb
  have hlA : (List.zipWith (· &&& ·) a b).length = a.length := by
    rw [List.length_zipWith, ← hlen, Nat.min_self]
  have hlX : (List.zipWith (· ^^^ ·) a b).length = a.length := by
    rw [List.length_zipWith, ← hlen, Nat.min_self]
  have hlM : (complementBytes (List.zipWith (· ^^^ ·) a b)).length = a.length := by
    rw [complementBytes_length, hlX]
  have hLM : (complementBytes (List.zipWith (· ^^^ ·) a b)).length = 4 ∨
      (complementBytes (List.zipWith (· ^^^ ·) a b)).length = 16 := by
    rw [hlM]; exact hLa
  have hAM : And (List.zipWith (· &&& ·) a b)
      (complementBytes (List.zipWith (· ^^^ ·) a b)) =
      some (List.zipWith (· &&& ·) (List.zipWith (· &&& ·) a b)
        (complementBytes (List.zipWith (· ^^^ ·) a b))) :=
    bitwiseOp_eq _ hand hxor (by rw [hlA, hlM]) hLM
  have hnew : New (List.zipWith (· &&& ·) a b) (List.zipWith (· ^^^ ·) a b) =
      some ⟨List.zipWith (· &&& ·) a b,
        List.zipWith (· &&& ·) (List.zipWith (· &&& ·) a b)
          (complementBytes (List.zipWith (· ^^^ ·) a b)),
        complementBytes (List.zipWith (· ^^^ ·) a b)⟩ := by
    simp only [New, hand, hxor, hAM, Option.map_some']
  have hFW : FindWildcard a b [] =
      some ⟨List.zipWith (· &&& ·) a b,
        List.zipWith (· &&& ·) (List.zipWith (· &&& ·) a b)
          (complementBytes (List.zipWith (· ^^^ ·) a b)),
        complementBytes (List.zipWith (· ^^^ ·) a b)⟩ := by
    simp [FindWildcard, findWildcard, hAnd, hXor, hnew]
  rw [hFW] at hw
  injection hw with hw
  subst hw
  have hMa : And a (complementBytes (List.zipWith (· ^^^ ·) a b)) =
      some (List.zipWith (· &&& ·) a
        (complementBytes (List.zipWith (· ^^^ ·) a b))) :=
    bitwiseOp_eq _ hca hxor hlM.symm hLM
  have hMb : And b (complementBytes (List.zipWith (· ^^^ ·) a b)) =
      some (List.zipWith (· &&& ·) b
        (complementBytes (List.zipWith (· ^^^ ·) a b))) :=
    bitwiseOp_eq _ hcb hxor (by rw [hlM, hlen]) hLM
  constructor
  · simp only [Matches, hMa, Option.map_some']
    congr 1
    rw [ipEqual_of_length (by rw [List.length_zipWith, List.length_zipWith, hlA])]
    exact beq_iff_eq.mpr (zip_matches_left a b hba)
  · simp only [Matches, hMb, Option.map_some']
    congr 1
    rw [ipEqual_of_length
      (by rw [List.length_zipWith, List.length_zipWith, hlA, hlM, ← hlen, Nat.min_self])]
    exact beq_iff_eq.mpr (zip_matches_right a b hbb)

theorem C1_pair_witness :
    Matches ⟨[192, 0, 2, 1], [192, 0, 2, 1], [255, 255, 255, 1]⟩ [192, 0, 2, 1] =
      some true ∧
    Matches ⟨[192, 0, 2, 1], [192, 0, 2, 1], [255, 255, 255, 1]⟩ [192, 0, 2, 255] =
      some true :=
  C1_pair [192, 0, 2, 1] [192, 0, 2, 255] (by decide) (by decide) (by decide)
    (by decide) (by decide)
    ⟨[192, 0, 2, 1], [192, 0, 2, 1], [255, 255, 255, 1]⟩ (by decide)

/-- Claim C4 counterexample: for the 16-byte `2001:db8::1` and the wildcard
mask `ffff:...:ffff:0000:ffff:ffff` (whose complement `::ffff:0:0` is
IPv4-mapped), `New` canonicalizes the stored care mask down to the 4-byte
`0.0.0.0`, and `Matches` disagrees with the claim's formula
`x AND complement(wildcard) == ip AND complement(wildcard)`: the formula
holds for `x = 2001:db8:ff::1`-like input below while `Matches` is false. -/
theorem C4_counterexample :
    (New [32, 1, 13, 184, 0, 0, 0, 0, 0, 0, 0, 0, 0, 0, 0, 1]
        [255, 255, 255, 255, 255, 255, 255, 255, 255, 255, 0, 0, 255, 255, 255, 255]).map
      (fun w => Matches w [32, 1, 13, 184, 0, 255, 0, 0, 0, 0, 0, 0, 0, 0, 0, 1]) =
      some (some false) ∧
    List.zipWith (· &&& ·) [32, 1, 13, 184, 0, 255, 0, 0, 0, 0, 0, 0, 0, 0, 0, 1]
      (complementBytes
        [255, 255, 255, 255, 255, 255, 255, 255, 255, 255, 0, 0, 255, 255, 255, 255]) =
    List.zipWith (· &&& ·) [32, 1, 13, 184, 0, 0, 0, 0, 0, 0, 0, 0, 0, 0, 0, 1]
      (complementBytes
        [255, 255, 255, 255, 255, 255, 255, 255, 255, 255, 0, 0, 255, 255, 255, 255]) ∧
    Canonical [32, 1, 13, 184, 0, 0, 0, 0, 0, 0, 0, 0, 0, 0, 0, 1] ∧
    Canonical [32, 1, 13, 184, 0, 255, 0, 0, 0, 0, 0, 0, 0, 0, 0, 1] := by
  decide

/-- Claim C4 (amended): for a Wildcard built by `New` from a canonical base
address and a same-length wildcard mask such that the wildcard mask, its
complement, the derived `bits`, and the `Last` address are all fixed by
canonicalization (automatic for 4-byte addresses), `Matches x` is exactly
`x AND mask == bits` with `mask` the complement of the wildcard mask and
`bits = ip AND mask`; in particular the `First` and `Last` addresses
match. -/
theorem C4_wildcard (ip wc : List Nat) (hip : Canonical ip) (hwb : Bytes wc)
    (hlen : wc.length = ip.length)
    (hm : canonIP (complementBytes wc) = complementBytes wc)
    (hw : canonIP wc = wc)
    (hbits : canonIP (List.zipWith (· &&& ·) ip (complementBytes wc)) =
      List.zipWith (· &&& ·) ip (complementBytes wc))
    (hlast : canonIP (List.zipWith (· ||| ·)
        (List.zipWith (· &&& ·) ip (complementBytes wc)) wc) =
      List.zipWith (· ||| ·) (List.zipWith (· &&& ·) ip (complementBytes wc)) wc)
    (w : Wildcard) (hnew : New ip wc = some w) :
    (∀ x, Canonical x → x.length = ip.length →
        Matches w x = some (decide (List.zipWith (· &&& ·) x (complementBytes wc) =
          List.zipWith (· &&& ·) ip (complementBytes wc)))) ∧
    Matches w (First w).ip = some true ∧
    (Last w).map (fun wl => Matches w wl.ip) = some (some true) := by
  have hcip := hip.2.1
  have hLip : ip.length = 4 ∨ ip.length = 16 := hip.1
  have hlM : (complementBytes wc).length = ip.length := by
    rw [complementBytes_length, hlen]
  have hLM : (complementBytes wc).length = 4 ∨ (complementBytes wc).length = 16 := by
    rw [hlM]; exact hLip
  have hBdef : And ip (complementBytes wc) =
      some (List.zipWith (· &&& ·) ip (complementBytes wc)) :=
    bitwiseOp_eq _ hcip hm hlM.symm hLM
  have hweq : w = ⟨ip, List.zipWith (· &&& ·) ip (complementBytes wc),
      complementBytes wc⟩ := by
    have : New ip wc = some ⟨ip, List.zipWith (· &&& ·) ip (complementBytes wc),
        complementBytes wc⟩ := by
      simp only [New, hcip, hm, hBdef, Option.map_some']
    rw [this] at hnew
    injection hnew with h
    exact h.symm
  subst hweq
  have hlB : (List.zipWith (· &&& ·) ip (complementBytes wc)).length = ip.length := by
    rw [List.length_zipWith, hlM, Nat.min_self]
  constructor
  · intro x hx hxlen
    have hMx : And x (complementBytes wc) =
        some (List.zipWith (· &&& ·) x (complementBytes wc)) :=
      bitwiseOp_eq _ hx.2.1 hm (by rw [hlM, hxlen]) hLM
    simp only [Matches, hMx, Option.map_some']
    congr 1
    rw [ipEqual_of_length
      (by rw [List.length_zipWith, List.length_zipWith, hxlen])]
    exact list_beq_eq_decide _ _
  constructor
  · simp only [First, hbits, hm]
    have hMB : And (List.zipWith (· &&& ·) ip (complementBytes wc))
        (complementBytes wc) =
        some (List.zipWith (· &&& ·)
          (List.zipWith (· &&& ·) ip (complementBytes wc)) (complementBytes wc)) :=
      bitwiseOp_eq _ hbits hm (by rw [hlB, hlM]) hLM
    simp only [Matches, hMB, Option.map_some']
    congr 1
    rw [ipEqual_of_length (by simp [List.length_zipWith, hlB, hlM])]
    exact beq_iff_eq.mpr (zip_land_idem ip (complementBytes wc))
  · have hOr : Or (List.zipWith (· &&& ·) ip (complementBytes wc))
        (complementBytes (complementBytes wc)) =
        some (List.zipWith (· ||| ·)
          (List.zipWith (· &&& ·) ip (complementBytes wc)) wc) := by
      rw [complementBytes_complementBytes]
      exact bitwiseOp_eq _ hbits hw (by rw [hlB, hlen]) (by rw [hlen]; exact hLip)
    have hlL : (List.zipWith (· ||| ·)
        (List.zipWith (· &&& ·) ip (complementBytes wc)) wc).length = ip.length := by
      rw [List.length_zipWith, hlB, hlen, Nat.min_self]
    have hML : And (List.zipWith (· ||| ·)
        (List.zipWith (· &&& ·) ip (complementBytes wc)) wc) (complementBytes wc) =
        some (List.zipWith (· &&& ·)
          (List.zipWith (· ||| ·)
            (List.zipWith (· &&& ·) ip (complementBytes wc)) wc)
          (complementBytes wc)) :=
      bitwiseOp_eq _ hlast hm (by rw [hlL, hlM]) hLM
    simp only [Last, hOr, Option.map_some', Matches, hML]
    congr 2
    rw [ipEqual_of_length (by simp [List.length_zipWith, hlL, hlM, hlB])]
    exact beq_iff_eq.mpr (zip_last_match ip wc hwb)

theorem C4_wildcard_witness :
    Matches ⟨[192, 0, 2, 1], [192, 0, 2, 1], [255, 255, 255, 1]⟩
      (First ⟨[192, 0, 2, 1], [192, 0, 2, 1], [255, 255, 255, 1]⟩).ip = some true :=
  (C4_wildcard [192, 0, 2, 1] [0, 0, 0, 254] (by decide) (by decide) (by decide)
    (by decide) (by decide) (by decide) (by decide)
    ⟨[192, 0, 2, 1], [192, 0, 2, 1], [255, 255, 255, 1]⟩ (by decide)).2.1

/-! Lemmas for the wildcard cursor stepping: `Next`/`Prev` only flip bit
positions where the care mask is clear, so `ip AND mask` is preserved. -/

theorem or_bit_and {m j b : Nat} (hmj : Nat.testBit m j = false) :
    (b ||| (1 <<< j)) &&& m = b &&& m := by
  apply Nat.eq_of_testBit_eq
  intro i
  simp only [Nat.testBit_land, Nat.testBit_lor, Nat.one_shiftLeft]
  by_cases hij : j = i
  · subst hij
    simp [hmj]
  · simp [Nat.testBit_two_pow_of_ne hij]

theorem clear_bit_and {m j b : Nat} (hb : b < 256) (hj : j < 8)
    (hmj : Nat.testBit m j = false) :
    (b &&& (255 ^^^ (1 <<< j))) &&& m = b &&& m := by
  apply Nat.eq_of_testBit_eq
  intro i
  simp only [Nat.testBit_land, Nat.testBit_xor, testBit_255, Nat.one_shiftLeft]
  by_cases hij : j = i
  · subst hij
    simp [hmj]
  · by_cases h8 : i < 8
    · simp [Nat.testBit_two_pow_of_ne hij, h8]
    · simp [testBit_byte_high hb h8]

theorem or_bit_lt {b j : Nat} (hb : b < 256) (hj : j < 8) : b ||| (1 <<< j) < 256 := by
  have h256 : (256 : Nat) = 2 ^ 8 := by norm_num
  rw [h256]
  refine Nat.or_lt_two_pow (h256 ▸ hb) ?_
  rw [Nat.one_shiftLeft]
  exact Nat.pow_lt_pow_right (by norm_num) hj

theorem clear_bit_lt {b x : Nat} (hb : b < 256) : b &&& x < 256 :=
  Nat.lt_of_le_of_lt Nat.and_le_left hb

theorem nextBitsAux_spec (m : Nat) : ∀ (js : List Nat) (b : Nat), b < 256 →
    (∀ j ∈ js, j < 8) →
    (nextBitsAux m b js).1 &&& m = b &&& m ∧ (nextBitsAux m b js).1 < 256 := by
  intro js
  induction js with
  | nil => intro b hb _; exact ⟨rfl, hb⟩
  | cons j js ih =>
    intro b hb hjs
    have hj : j < 8 := hjs j (List.mem_cons_self _ _)
    have hjs' : ∀ x ∈ js, x < 8 := fun x hx => hjs x (List.mem_cons_of_mem _ hx)
    simp only [nextBitsAux]
    by_cases hm : bit m j = true
    · simp only [if_pos hm]
      exact ih b hb hjs'
    · have hmf : Nat.testBit m j = false := by simpa [bit] using hm
      simp only [if_neg hm]
      by_cases hbj : bit b j = false
      · simp only [if_pos hbj]
        exact ⟨or_bit_and hmf, or_bit_lt hb hj⟩
      · simp only [if_neg hbj]
        obtain ⟨h1, h2⟩ := ih (b &&& (255 ^^^ (1 <<< j))) (clear_bit_lt hb) hjs'
        exact ⟨h1.trans (clear_bit_and hb hj hmf), h2⟩

theorem prevBitsAux_spec (m : Nat) : ∀ (js : List Nat) (b : Nat), b < 256 →
    (∀ j ∈ js, j < 8) →
    (prevBitsAux m b js).1 &&& m = b &&& m ∧ (prevBitsAux m b js).1 < 256 := by
  intro js
  induction js with
  | nil => intro b hb _; exact ⟨rfl, hb⟩
  | cons j js ih =>
    intro b hb hjs
    have hj : j < 8 := hjs j (List.mem_cons_self _ _)
    have hjs' : ∀ x ∈ js, x < 8 := fun x hx => hjs x (List.mem_cons_of_mem _ hx)
    simp only [prevBitsAux]
    by_cases hm : bit m j = true
    · simp only [if_pos hm]
      exact ih b hb hjs'
    · have hmf : Nat.testBit m j = false := by simpa [bit] using hm
      simp only [if_neg hm]
      by_cases hbj : bit b j = true
      · simp only [if_pos hbj]
        exact ⟨clear_bit_and hb hj hmf, clear_bit_lt hb⟩
      · simp only [if_neg hbj]
        obtain ⟨h1, h2⟩ := ih (b ||| (1 <<< j)) (or_bit_lt hb hj) hjs'
        exact ⟨h1.trans (or_bit_and hmf), h2⟩

theorem nextChain_spec : ∀ (ms bs : List Nat), Bytes bs →
    List.zipWith (· &&& ·) (nextChain ms bs).1 ms =
      List.zipWith (· &&& ·) bs ms ∧
    (nextChain ms bs).1.length = bs.length ∧ Bytes (nextChain ms bs).1 := by
  intro ms
  induction ms with
  | nil => intro bs hbs; exact ⟨rfl, rfl, hbs⟩
  | cons m ms ih =>
    intro bs hbs
    cases bs with
    | nil => exact ⟨rfl, rfl, hbs⟩
    | cons b bs' =>
      have hb := bytes_head hbs
      have hbs' := bytes_tail hbs
      have hrange : ∀ j ∈ List.range 8, j < 8 := fun j hj => List.mem_range.mp hj
      have hspec := nextBitsAux_spec m (List.range 8) b hb hrange
      simp only [nextChain]
      by_cases hstop : (nextBitsAux m b (List.range 8)).2 = true
      · simp only [if_pos hstop]
        exact ⟨by simp only [List.zipWith_cons_cons, hspec.1],
          by simp, bytes_cons hspec.2 hbs'⟩
      · simp only [if_neg hstop]
        obtain ⟨hz, hl, hby⟩ := ih bs' hbs'
        exact ⟨by simp only [List.zipWith_cons_cons, hspec.1, hz],
          by simp [hl], bytes_cons hspec.2 hby⟩

theorem prevChain_spec : ∀ (ms bs : List Nat), Bytes bs →
    List.zipWith (· &&& ·) (prevChain ms bs).1 ms =
      List.zipWith (· &&& ·) bs ms ∧
    (prevChain ms bs).1.length = bs.length ∧ Bytes (prevChain ms bs).1 := by
  intro ms
  induction ms with
  | nil => intro bs hbs; exact ⟨rfl, rfl, hbs⟩
  | cons m ms ih =>
    intro bs hbs
    cases bs with
    | nil => exact ⟨rfl, rfl, hbs⟩
    | cons b bs' =>
      have hb := bytes_head hbs
      have hbs' := bytes_tail hbs
      have hrange : ∀ j ∈ List.range 8, j < 8 := fun j hj => List.mem_range.mp hj
      have hspec := prevBitsAux_spec m (List.range 8) b hb hrange
      simp only [prevChain]
      by_cases hstop : (prevBitsAux m b (List.range 8)).2 = true
      · simp only [if_pos hstop]
        exact ⟨by simp only [List.zipWith_cons_cons, hspec.1],
          by simp, bytes_cons hspec.2 hbs'⟩
      · simp only [if_neg hstop]
        obtain ⟨hz, hl, hby⟩ := ih bs' hbs'
        exact ⟨by simp only [List.zipWith_cons_cons, hspec.1, hz],
          by simp [hl], bytes_cons hspec.2 hby⟩

theorem ipSize_le {ip : List Nat} (hL : ip.length = 4 ∨ ip.length = 16) :
    ipSize ip ≤ ip.length := by
  unfold ipSize
  rcases hL with h | h
  · have hc : canonIP ip = ip := by unfold canonIP; rw [if_pos h]
    rw [hc, h]
    simp
  · split <;> omega

theorem zipWith_rev_cancel {f : Nat → Nat → Nat} {u v w : List Nat}
    (hu : u.length = w.length) (hv : v.length = w.length)
    (h : List.zipWith f u w.reverse = List.zipWith f v w.reverse) :
    List.zipWith f u.reverse w = List.zipWith f v.reverse w := by
  have h1 : (List.zipWith f u w.reverse).reverse =
      (List.zipWith f v w.reverse).reverse := by rw [h]
  rw [List.zipWith_distrib_reverse (by rw [hu, List.length_reverse]),
    List.zipWith_distrib_reverse (by rw [hv, List.length_reverse]),
    List.reverse_reverse] at h1
  exact h1

theorem nextAddr_spec (mask ip : List Nat) (hlen : mask.length = ip.length)
    (hL : ip.length = 4 ∨ ip.length = 16) (hb : Bytes ip) :
    List.zipWith (· &&& ·) (nextAddr mask ip) mask =
      List.zipWith (· &&& ·) ip mask ∧
    (nextAddr mask ip).length = ip.length ∧
    Bytes (nextAddr mask ip) := by
  have hn : ipSize ip ≤ ip.length := ipSize_le hL
  have hnm : ipSize ip ≤ mask.length := by omega
  obtain ⟨hz, hl, hby⟩ := nextChain_spec (mask.take (ipSize ip)).reverse
    (ip.take (ipSize ip)).reverse (bytes_reverse (bytes_take _ hb))
  set A := (nextChain (mask.take (ipSize ip)).reverse
    (ip.take (ipSize ip)).reverse).1 with hA
  have hAlen : A.length = ipSize ip := by
    rw [hl, List.length_reverse, List.length_take]
    omega
  have hfirst : List.zipWith (· &&& ·) A.reverse (mask.take (ipSize ip)) =
      List.zipWith (· &&& ·) (ip.take (ipSize ip)) (mask.take (ipSize ip)) := by
    have hstep := zipWith_rev_cancel
      (by rw [hAlen, List.length_take]; omega)
      (by rw [List.length_reverse, List.length_take, List.length_take]; omega) hz
    rwa [List.reverse_reverse] at hstep
  refine ⟨?_, ?_, ?_⟩
  · show List.zipWith (· &&& ·) (A.reverse ++ ip.drop (ipSize ip)) mask =
      List.zipWith (· &&& ·) ip mask
    conv_rhs => rw [← List.take_append_drop (ipSize ip) ip]
    rw [show List.zipWith (· &&& ·) (A.reverse ++ ip.drop (ipSize ip)) mask =
        List.zipWith (· &&& ·) (A.reverse ++ ip.drop (ipSize ip))
          (mask.take (ipSize ip) ++ mask.drop (ipSize ip)) from by
      rw [List.take_append_drop]]
    rw [show List.zipWith (· &&& ·)
        (ip.take (ipSize ip) ++ ip.drop (ipSize ip)) mask =
        List.zipWith (· &&& ·) (ip.take (ipSize ip) ++ ip.drop (ipSize ip))
          (mask.take (ipSize ip) ++ mask.drop (ipSize ip)) from by
      rw [List.take_append_drop (ipSize ip) mask]]
    rw [List.zipWith_append _ _ _ _ _
        (by rw [List.length_reverse, hAlen, List.length_take]; omega),
      List.zipWith_append _ _ _ _ _
        (by rw [List.length_take, List.length_take]; omega)]
    rw [hfirst]
  · show (A.reverse ++ ip.drop (ipSize ip)).length = ip.length
    rw [List.length_append, List.length_reverse, hAlen, List.length_drop]
    omega
  · exact bytes_append (bytes_reverse hby) (bytes_drop _ hb)

theorem prevAddr_spec (mask ip : List Nat) (hlen : mask.length = ip.length)
    (hL : ip.length = 4 ∨ ip.length = 16) (hb : Bytes ip) :
    List.zipWith (· &&& ·) (prevAddr mask ip) mask =
      List.zipWith (· &&& ·) ip mask ∧
    (prevAddr mask ip).length = ip.length ∧
    Bytes (prevAddr mask ip) := by
  have hn : ipSize ip ≤ ip.length := ipSize_le hL
  have hnm : ipSize ip ≤ mask.length := by omega
  obtain ⟨hz, hl, hby⟩ := prevChain_spec (mask.take (ipSize ip)).reverse
    (ip.take (ipSize ip)).reverse (bytes_reverse (bytes_take _ hb))
  set A := (prevChain (mask.take (ipSize ip)).reverse
    (ip.take (ipSize ip)).reverse).1 with hA
  have hAlen : A.length = ipSize ip := by
    rw [hl, List.length_reverse, List.length_take]
    omega
  have hfirst : List.zipWith (· &&& ·) A.reverse (mask.take (ipSize ip)) =
      List.zipWith (· &&& ·) (ip.take (ipSize ip)) (mask.take (ipSize ip)) := by
    have hstep := zipWith_rev_cancel
      (by rw [hAlen, List.length_take]; omega)
      (by rw [List.length_reverse, List.length_take, List.length_take]; omega) hz
    rwa [List.reverse_reverse] at hstep
  refine ⟨?_, ?_, ?_⟩
  · show List.zipWith (· &&& ·) (A.reverse ++ ip.drop (ipSize ip)) mask =
      List.zipWith (· &&& ·) ip mask
    conv_rhs => rw [← List.take_append_drop (ipSize ip) ip]
    rw [show List.zipWith (· &&& ·) (A.reverse ++ ip.drop (ipSize ip)) mask =
        List.zipWith (· &&& ·) (A.reverse ++ ip.drop (ipSize ip))
          (mask.take (ipSize ip) ++ mask.drop (ipSize ip)) from by
      rw [List.take_append_drop]]
    rw [show List.zipWith (· &&& ·)
        (ip.take (ipSize ip) ++ ip.drop (ipSize ip)) mask =
        List.zipWith (· &&& ·) (ip.take (ipSize ip) ++ ip.drop (ipSize ip))
          (mask.take (ipSize ip) ++ mask.drop (ipSize ip)) from by
      rw [List.take_append_drop (ipSize ip) mask]]
    rw [List.zipWith_append _ _ _ _ _
        (by rw [List.length_reverse, hAlen, List.length_take]; omega),
      List.zipWith_append _ _ _ _ _
        (by rw [List.length_take, List.length_take]; omega)]
    rw [hfirst]
  · show (A.reverse ++ ip.drop (ipSize ip)).length = ip.length
    rw [List.length_append, List.length_reverse, hAlen, List.length_drop]
    omega
  · exact bytes_append (bytes_reverse hby) (bytes_drop _ hb)

theorem byte_or_not_and {m : Nat} (i : Nat) (hm : m < 256) :
    ((i &&& m) ||| (255 ^^^ m)) &&& m = i &&& m := by
  apply Nat.eq_of_testBit_eq
  intro j
  simp only [Nat.testBit_land, Nat.testBit_lor, Nat.testBit_xor, testBit_255]
  by_cases h8 : j < 8
  · simp only [decide_eq_true h8]
    cases hI : i.testBit j <;> cases hM : m.testBit j <;> simp
  · simp [testBit_byte_high hm h8, h8]

theorem zip_or_not_and : ∀ (ipl m : List Nat), Bytes m →
    List.zipWith (· &&& ·)
      (List.zipWith (· ||| ·) (List.zipWith (· &&& ·) ipl m) (complementBytes m)) m =
    List.zipWith (· &&& ·) ipl m := by
  intro ipl
  induction ipl with
  | nil => intro m _; rfl
  | cons x xs ih =>
    intro m hm
    cases m with
    | nil => rfl
    | cons y ys =>
      simp only [List.zipWith_cons_cons, complementBytes_cons]
      rw [byte_or_not_and x (bytes_head hm), ih ys (bytes_tail hm)]

theorem ipEqual_self (x : List Nat) : ipEqual x x = true := by
  simp [ipEqual]

/-- Claim C10: the invariant "current address AND care mask = stored bits"
(a) is established by `New` for a canonical base address and same-length
wildcard mask whose complement is fixed by canonicalization, (b) is
preserved by `First` and (c) by `Last` for well-formed states, (d,e) is
preserved by every `Next` and `Prev` — these flip only bit positions where
the care mask is clear, whatever range of bytes `IPSize` makes them
scan — and (f) makes `Matches(IP())` true for well-formed states. -/
theorem C10_invariant :
    (∀ (ip wc : List Nat) (w : Wildcard), Canonical ip → wc.length = ip.length →
      canonIP (complementBytes wc) = complementBytes wc → New ip wc = some w →
      List.zipWith (· &&& ·) w.ip w.mask = w.bits) ∧
    (∀ w : Wildcard, canonIP w.bits = w.bits → canonIP w.mask = w.mask →
      List.zipWith (· &&& ·) w.ip w.mask = w.bits →
      List.zipWith (· &&& ·) (First w).ip (First w).mask = (First w).bits) ∧
    (∀ w : Wildcard, canonIP w.bits = w.bits → canonIP w.mask = w.mask →
      canonIP (complementBytes w.mask) = complementBytes w.mask →
      Bytes w.mask → w.mask.length = w.ip.length →
      (w.mask.length = 4 ∨ w.mask.length = 16) →
      List.zipWith (· &&& ·) w.ip w.mask = w.bits →
      (Last w).map (fun wl =>
        decide (List.zipWith (· &&& ·) wl.ip wl.mask = wl.bits)) = some true) ∧
    (∀ w : Wildcard, w.mask.length = w.ip.length →
      (w.ip.length = 4 ∨ w.ip.length = 16) → Bytes w.ip →
      List.zipWith (· &&& ·) w.ip w.mask = w.bits →
      List.zipWith (· &&& ·) (Next w).ip (Next w).mask = (Next w).bits) ∧
    (∀ w : Wildcard, w.mask.length = w.ip.length →
      (w.ip.length = 4 ∨ w.ip.length = 16) → Bytes w.ip →
      List.zipWith (· &&& ·) w.ip w.mask = w.bits →
      List.zipWith (· &&& ·) (Prev w).ip (Prev w).mask = (Prev w).bits) ∧
    (∀ w : Wildcard, canonIP w.ip = w.ip → canonIP w.mask = w.mask →
      w.mask.length = w.ip.length → (w.mask.length = 4 ∨ w.mask.length = 16) →
      List.zipWith (· &&& ·) w.ip w.mask = w.bits →
      Matches w w.ip = some true) := by
  refine ⟨?_, ?_, ?_, ?_, ?_, ?_⟩
  · intro ip wc w hip hlen hmc hnew
    have hlM : (complementBytes wc).length = ip.length := by
      rw [complementBytes_length, hlen]
    have hLM : (complementBytes wc).length = 4 ∨ (complementBytes wc).length = 16 := by
      rw [hlM]; exact hip.1
    have hBdef : And ip (complementBytes wc) =
        some (List.zipWith (· &&& ·) ip (complementBytes wc)) :=
      bitwiseOp_eq _ hip.2.1 hmc hlM.symm hLM
    have hweq : w = ⟨ip, List.zipWith (· &&& ·) ip (complementBytes wc),
        complementBytes wc⟩ := by
      have h2 : New ip wc = some ⟨ip, List.zipWith (· &&& ·) ip (complementBytes wc),
          complementBytes wc⟩ := by
        simp only [New, hip.2.1, hmc, hBdef, Option.map_some']
      rw [h2] at hnew
      injection hnew with h3
      exact h3.symm
    subst hweq
    rfl
  · intro w hcb hcm hinv
    simp only [First, hcb, hcm]
    rw [← hinv]
    exact zip_land_idem _ _
  · intro w hcb hcm hcw hbm hlen hLm hinv
    have hlbits : w.bits.length = w.mask.length := by
      rw [← hinv, List.length_zipWith, hlen]
      exact Nat.min_self _
    have hOr : Or w.bits (complementBytes w.mask) =
        some (List.zipWith (· ||| ·) w.bits (complementBytes w.mask)) :=
      bitwiseOp_eq _ hcb hcw (by rw [hlbits, complementBytes_length])
        (by rw [complementBytes_length]; exact hLm)
    simp only [Last, hOr, Option.map_some']
    congr 1
    rw [decide_eq_true_eq]
    show List.zipWith (· &&& ·)
      (List.zipWith (· ||| ·) w.bits (complementBytes w.mask)) (canonIP w.mask) =
      canonIP w.bits
    rw [hcm, hcb, ← hinv]
    exact zip_or_not_and w.ip w.mask hbm
  · intro w hlen hL hb hinv
    show List.zipWith (· &&& ·) (nextAddr w.mask w.ip) w.mask = w.bits
    rw [(nextAddr_spec w.mask w.ip hlen hL hb).1]
    exact hinv
  · intro w hlen hL hb hinv
    show List.zipWith (· &&& ·) (prevAddr w.mask w.ip) w.mask = w.bits
    rw [(prevAddr_spec w.mask w.ip hlen hL hb).1]
    exact hinv
  · intro w hci hcm hlen hLm hinv
    have hA : And w.ip w.mask = some (List.zipWith (· &&& ·) w.ip w.mask) :=
      bitwiseOp_eq _ hci hcm hlen.symm hLm
    simp only [Matches, hA, Option.map_some', hinv, ipEqual_self]

theorem C10_invariant_witness :
    List.zipWith (· &&& ·)
      (Next ⟨[192, 0, 2, 0], [192, 0, 2, 0], [255, 255, 255, 1]⟩).ip
      (Next ⟨[192, 0, 2, 0], [192, 0, 2, 0], [255, 255, 255, 1]⟩).mask =
    (Next ⟨[192, 0, 2, 0], [192, 0, 2, 0], [255, 255, 255, 1]⟩).bits :=
  C10_invariant.2.2.2.1 ⟨[192, 0, 2, 0], [192, 0, 2, 0], [255, 255, 255, 1]⟩
    (by decide) (by decide) (by decide) (by decide)

/-- Claim C2: at the Wildcard with base `::fffe:0:0` (bytes 10/11 are
`255,254`) and wildcard mask with the single don't-care bit 0 of byte 11,
the number of don't-care bits is `k = 1`, yet `Next` applied `2^1 = 2` times
from `First` does not return to `First`'s address: the first step lands on
the IPv4-mapped `::ffff:0:0`, where `IPSize(w.ip)` reports 4 and `Next`
scans only the first four (all-care) bytes, returning the cursor
unchanged — the enumeration is stuck, not cyclic. -/
theorem C2_stuck :
    (New [0, 0, 0, 0, 0, 0, 0, 0, 0, 0, 255, 254, 0, 0, 0, 0]
        [0, 0, 0, 0, 0, 0, 0, 0, 0, 0, 0, 1, 0, 0, 0, 0]).map
      (fun w => (popCount (wildcardMask w),
        (Next (Next (First w))).ip, (First w).ip)) =
      some (1, [0, 0, 0, 0, 0, 0, 0, 0, 0, 0, 255, 255, 0, 0, 0, 0],
        [0, 0, 0, 0, 0, 0, 0, 0, 0, 0, 255, 254, 0, 0, 0, 0]) ∧
    [0, 0, 0, 0, 0, 0, 0, 0, 0, 0, 255, 255, 0, 0, 0, 0] ≠
      ([0, 0, 0, 0, 0, 0, 0, 0, 0, 0, 255, 254, 0, 0, 0, 0] : List Nat) := by
  refine ⟨by decide, by decide⟩

end IpCalc
